import Mathlib

/-!
Verification of the REPL completion engine of `tools/swift/Completion.cpp`.

The session state (`REPLCompletions`), the candidate collector
(`handleResults`), the two-pass driver (`doCodeCompletion` / `populate`)
and the navigation accessors (`getRoot`, `getNextStem`, `getPreviousStem`,
`reset`) are translated from the source.  The external collaborators that
the source calls but that are not part of this file's repository slice
(parser, typechecker, completion generator, tokenizer) are modelled as an
opaque parameter record `ExternalEngine`, following the collaborator
contracts the specification documents for them.

Strings are modelled as `List Char`; `size_t` arithmetic is taken modulo
`2 ^ 64`.  A C++ `std::string` buffer is NUL-terminated; reads of the
terminating position are modelled by `nullChar`.
-/

namespace REPLC

/-- The NUL character.  A C++ `std::string` keeps a NUL terminator one past
its last character; `getRoot`'s mismatch scan can read that position. -/
def nullChar : Char := Char.ofNat 0

/-- Chunk kinds of a structured completion string
(`CodeCompletionString::Chunk::ChunkKind` as consumed by
`toInsertableString`).  The three source kinds ending in `Annotation` are
spelled `Annot` here. -/
inductive ChunkKind where
  | Text
  | LeftParen
  | RightParen
  | LeftBracket
  | RightBracket
  | Dot
  | Comma
  | CallParameterName
  | CallParameterNameAnnot
  | CallParameterColon
  | CallParameterColonAnnot
  | CallParameterType
  | OptionalBegin
  | CallParameterBegin
  | TypeAnnot
  deriving DecidableEq

/-- One chunk of a structured completion string: its kind and its text. -/
structure Chunk where
  kind : ChunkKind
  text : List Char
  deriving DecidableEq

/-- A raw completion result: its chunk sequence and the full rendered
display text produced by `Result->print` (rendering is external, so the
rendered text is carried as a field). -/
structure CompletionResult where
  chunks : List Chunk
  printed : List Char
  deriving DecidableEq

/-- The seven "literal" chunk kinds, the first group of the `switch` in
`toInsertableString`. -/
def ChunkKind.isLiteral : ChunkKind → Bool
  | .Text | .LeftParen | .RightParen | .LeftBracket | .RightBracket | .Dot | .Comma => true
  | _ => false

/-- Accumulator loop of `toInsertableString`: literal chunks append their
text to `Str`; the first chunk of any other kind returns the accumulated
`Str` unchanged (the candidate is truncated there). -/
def toInsertableStringAux (acc : List Char) : List Chunk → List Char
  | [] => acc
  | c :: cs =>
    match c.kind with
    | .Text | .LeftParen | .RightParen | .LeftBracket | .RightBracket | .Dot | .Comma =>
        toInsertableStringAux (acc ++ c.text) cs
    | .CallParameterName | .CallParameterNameAnnot | .CallParameterColon
    | .CallParameterColonAnnot | .CallParameterType | .OptionalBegin
    | .CallParameterBegin | .TypeAnnot => acc

/-- `toInsertableString` from the source (lines 33-59). -/
def toInsertableString (r : CompletionResult) : List Char :=
  toInsertableStringAux [] r.chunks

/-- The session states (`CompletionState` in `Completion.h`, as used by
the source). -/
inductive CompletionState where
  | Invalid
  | Empty
  | Unique
  | CompletedRoot
  deriving DecidableEq

/-- `2 ^ 64`, the modulus of `size_t` arithmetic. -/
def USIZE : Nat := 2 ^ 64

/-- `~size_t(0)`, the sentinel value `populate` stores into
`CurrentCompletionIdx` to mean "no candidate visited yet". -/
def sentinelIdx : Nat := USIZE - 1

/-- The `REPLCompletions` session object.  The source field `Prefix` is
spelled `PrefixStr` here. -/
structure REPLCompletions where
  State : CompletionState
  PrefixStr : List Char
  Root : Option (List Char)
  CurrentCompletionIdx : Nat
  CompletionStrings : List (List Char)
  CompletionInsertableStrings : List (List Char)
  deriving DecidableEq

/-- The diagnostics engine of the AST context: its attached consumers
(opaque handles) and its had-any-error flag. -/
structure DiagnosticsEngine where
  Consumers : List Nat
  HadAnyError : Bool
  deriving DecidableEq

/-- `Diags.takeConsumers()`: detaches and returns all consumers. -/
def DiagnosticsEngine.takeConsumers (d : DiagnosticsEngine) :
    List Nat × DiagnosticsEngine :=
  (d.Consumers, { d with Consumers := [] })

/-- `Diags.addConsumer(c)`: attaches one consumer. -/
def DiagnosticsEngine.addConsumer (d : DiagnosticsEngine) (c : Nat) :
    DiagnosticsEngine :=
  { d with Consumers := d.Consumers ++ [c] }

/-- `Diags.resetHadAnyError()`. -/
def DiagnosticsEngine.resetHadAnyError (d : DiagnosticsEngine) :
    DiagnosticsEngine :=
  { d with HadAnyError := false }

/-- The borrowed translation unit: its persistent declaration list (opaque
handles) and its diagnostics engine. -/
structure TranslationUnit where
  Decls : List Nat
  Diags : DiagnosticsEngine
  deriving DecidableEq

/-- Token kinds, as far as `populate` inspects them. -/
inductive TokenKind where
  | identifier
  | keyword
  | other
  deriving DecidableEq

/-- A lexer token: kind, text, and the byte offset of its start inside the
entered code (`LastToken.getLoc()` minus the buffer start). -/
structure Token where
  kind : TokenKind
  text : List Char
  offset : Nat
  deriving DecidableEq

/-- `LastToken.is(tok::identifier) || LastToken.isKeyword()`. -/
def Token.isIdentOrKeyword (t : Token) : Bool :=
  match t.kind with
  | .identifier => true
  | .keyword => true
  | .other => false

/-- Modelled from the spec: the external collaborators of section 6 that
are not part of this repository slice (the incremental
parse/typecheck/complete service and the tokenizer).  For a given entered
code, `results` is the batch of raw candidates the completion generator
streams to the consumer, `newDecls` the declarations the parse
speculatively appends to the translation unit, `raisesError` whether the
pass raises the diagnostics error flag, and `tokens` the token sequence of
the augmented buffer built from that code. -/
structure ExternalEngine where
  results : List Char → List CompletionResult
  newDecls : List Char → List Nat
  raisesError : List Char → Bool
  tokens : List Char → List Token

/-- `REPLCodeCompletionConsumer::handleResults` (lines 69-86): for each raw
result, derive its insertable text; if it starts with the session's
current prefix, append the full rendered text to `CompletionStrings` and
the insertable text, with the prefix stripped from its front, to
`CompletionInsertableStrings`. -/
def handleResults (s : REPLCompletions) (results : List CompletionResult) :
    REPLCompletions :=
  results.foldl
    (fun acc r =>
      let ins := toInsertableString r
      if acc.PrefixStr <+: ins then
        { acc with
          CompletionStrings := acc.CompletionStrings ++ [r.printed],
          CompletionInsertableStrings :=
            acc.CompletionInsertableStrings ++ [ins.drop acc.PrefixStr.length] }
      else acc)
    s

/-- `doCodeCompletion` (lines 101-152): detach the diagnostic consumers,
run the parse/typecheck/complete pass (which appends speculative
declarations, may raise the error flag, and streams its results to the
consumer), then truncate the declaration list back to its original count,
reattach every detached consumer, and clear the error flag. -/
def doCodeCompletion (eng : ExternalEngine) (tu : TranslationUnit)
    (code : List Char) (s : REPLCompletions) :
    TranslationUnit × REPLCompletions :=
  let taken := tu.Diags.takeConsumers
  let originalDeclCount := tu.Decls.length
  let declsAfterParse := tu.Decls ++ eng.newDecls code
  let diagsAfterParse : DiagnosticsEngine :=
    { taken.2 with HadAnyError := taken.2.HadAnyError || eng.raisesError code }
  let sAfter := handleResults s (eng.results code)
  let declsRestored := declsAfterParse.take originalDeclCount
  let diagsReattached := taken.1.foldl DiagnosticsEngine.addConsumer diagsAfterParse
  ({ Decls := declsRestored, Diags := diagsReattached.resetHadAnyError }, sAfter)

/-- Classification at the end of `populate` (lines 185-190). -/
def classifyState (l : List (List Char)) : CompletionState :=
  if l = [] then .Empty else if l.length = 1 then .Unique else .CompletedRoot

/-- `REPLCompletions::populate` (lines 154-191): clear the prefix, root
cache, cursor and candidate lists; run the completion pass on the entered
code; re-tokenize; if the last token is an identifier or keyword, set the
prefix to its text and run the pass again on the code truncated at that
token's start offset; finally classify the state.  The candidate lists are
cleared only once, at the top. -/
def populate (eng : ExternalEngine) (tu : TranslationUnit) (code : List Char)
    (s : REPLCompletions) : TranslationUnit × REPLCompletions :=
  let s0 : REPLCompletions :=
    { s with
      PrefixStr := [], Root := none, CurrentCompletionIdx := sentinelIdx,
      CompletionStrings := [], CompletionInsertableStrings := [] }
  let p1 := doCodeCompletion eng tu code s0
  let p2 :=
    match (eng.tokens code).getLast? with
    | some t =>
        if t.isIdentOrKeyword then
          doCodeCompletion eng p1.1 (code.take t.offset)
            { p1.2 with PrefixStr := t.text }
        else p1
    | none => p1
  (p2.1, { p2.2 with State := classifyState p2.2.CompletionInsertableStrings })

/-- One scan of `std::mismatch(RootStr.begin(), RootStr.end(), S.begin())`
as the source runs it: the index of the first position at which the first
range ends or the two buffers differ.  The second range carries no end
iterator; a read at a position at or past `b`'s length is a read of `b`'s
NUL terminator, modelled as `nullChar`. -/
def cppMismatchLen : List Char → List Char → Nat
  | [], _ => 0
  | c :: a1, b => if c = b.headD nullChar then cppMismatchLen a1 b.tail + 1 else 0

/-- How many positions of the second buffer the scan dereferences: the
loop reads `*first2` at every comparison, including the failing one, so it
touches indices `0 .. cppMismatchReadCount a b - 1` of `b`. -/
def cppMismatchReadCount (a b : List Char) : Nat :=
  min (cppMismatchLen a b + 1) a.length

/-- One step of `getRoot`'s reduction loop (lines 203-207): shorten the
running root to the mismatch point with the next stored string. -/
def rootStep (r s : List Char) : List Char :=
  r.take (cppMismatchLen r s)

/-- The reduction loop of `getRoot`: start from the first stored string
and fold `rootStep` over the whole list. -/
def computeRootStr (l : List (List Char)) : List Char :=
  match l with
  | [] => []
  | r0 :: _ => l.foldl rootStep r0

/-- `REPLCompletions::getRoot` (lines 193-210): return the cached root if
present; an empty candidate list yields the empty root; otherwise run the
reduction loop.  The computed value is stored in the cache.  The source
method is `const` with a `mutable` cache, so the possibly updated session
is returned alongside the value. -/
def getRoot (s : REPLCompletions) : List Char × REPLCompletions :=
  match s.Root with
  | some r => (r, s)
  | none =>
      if s.CompletionInsertableStrings = [] then
        ([], { s with Root := some [] })
      else
        let r := computeRootStr s.CompletionInsertableStrings
        (r, { s with Root := some r })

/-- `REPLCompletions::getPreviousStem` (lines 212-218): empty result when
the cursor is the sentinel or there are no candidates; otherwise the
current candidate with the root dropped.  The unguarded vector access is
modelled by `List.get?`: a `none` result is an out-of-bounds access. -/
def getPreviousStem (s : REPLCompletions) : Option (List Char × REPLCompletions) :=
  if s.CurrentCompletionIdx = sentinelIdx ∨ s.CompletionInsertableStrings = [] then
    some ([], s)
  else
    let rp := getRoot s
    (rp.2.CompletionInsertableStrings.get? s.CurrentCompletionIdx).map
      (fun str => (str.drop rp.1.length, rp.2))

/-- `REPLCompletions::getNextStem` (lines 220-230): empty result when
there are no candidates; otherwise increment the cursor (a `size_t`, so
modulo `2 ^ 64`), wrap it to zero when it reaches the candidate count, and
return the selected candidate with the root dropped.  The chosen index is
provably in bounds, so the access is modelled with `List.getD`. -/
def getNextStem (s : REPLCompletions) : List Char × REPLCompletions :=
  if s.CompletionInsertableStrings = [] then ([], s)
  else
    let i0 := (s.CurrentCompletionIdx + 1) % USIZE
    let i := if s.CompletionInsertableStrings.length ≤ i0 then 0 else i0
    let rp := getRoot { s with CurrentCompletionIdx := i }
    ((rp.2.CompletionInsertableStrings.getD i []).drop rp.1.length, rp.2)

/-- `REPLCompletions::reset` (line 232). -/
def reset (s : REPLCompletions) : REPLCompletions :=
  { s with State := CompletionState.Invalid }

/-- The session after `k` calls of `getNextStem`, keeping only the state. -/
def applyNext (s : REPLCompletions) : Nat → REPLCompletions
  | 0 => s
  | k + 1 => (getNextStem (applyNext s k)).2

/-- The display strings one pass appends for a given prefix: the rendered
texts of the raw results whose insertable text starts with the prefix. -/
def storedDisplays (p : List Char) (rs : List CompletionResult) :
    List (List Char) :=
  (rs.filter fun r => decide (p <+: toInsertableString r)).map CompletionResult.printed

/-- The insertable strings one pass appends for a given prefix: the
insertable texts of the surviving raw results, with the prefix length
stripped from their front. -/
def storedInsertables (p : List Char) (rs : List CompletionResult) :
    List (List Char) :=
  (rs.filter fun r => decide (p <+: toInsertableString r)).map
    fun r => (toInsertableString r).drop p.length

/-- The insertable text as the specification words it: the concatenation
of the texts of the leading literal chunks, stopping at the first chunk of
a non-literal kind. -/
def insertableStringSpec (r : CompletionResult) : List Char :=
  ((r.chunks.takeWhile fun c => c.kind.isLiteral).map Chunk.text).flatten

/-- The longest common prefix of two strings, the mathematical comparison
point for `rootStep`. -/
def lcp : List Char → List Char → List Char
  | a :: as, b :: bs => if a = b then a :: lcp as bs else []
  | _, _ => []

/-- A concrete external engine used for concrete evaluations: on the full
entered code `"ab"` the generator streams one candidate with insertable
text `"zzz"`; on the truncated (empty) code it streams one candidate with
insertable text `"abc"`; the augmented buffer tokenizes to the single
identifier token `"ab"` starting at offset `0`. -/
def engEx : ExternalEngine where
  results := fun code =>
    if code = [] then [⟨[⟨ChunkKind.Text, "abc".data⟩], "abc".data⟩]
    else [⟨[⟨ChunkKind.Text, "zzz".data⟩], "zzz".data⟩]
  newDecls := fun _ => [7]
  raisesError := fun _ => true
  tokens := fun _ => [⟨TokenKind.identifier, "ab".data, 0⟩]

/-- A concrete translation unit with one persistent declaration and one
attached diagnostic consumer. -/
def tuEx : TranslationUnit :=
  { Decls := [3], Diags := { Consumers := [5], HadAnyError := false } }

/-- A concrete session in its initial state. -/
def sessEx : REPLCompletions :=
  { State := CompletionState.Invalid, PrefixStr := [], Root := none,
    CurrentCompletionIdx := 0, CompletionStrings := [],
    CompletionInsertableStrings := [] }

/-! Lemmas about `lcp`. -/

theorem lcp_pfx_left : ∀ a b : List Char, lcp a b <+: a := by
  intro a
  induction a with
  | nil => intro b; cases b <;> exact ⟨[], rfl⟩
  | cons c a1 ih =>
    intro b
    cases b with
    | nil => exact ⟨c :: a1, rfl⟩
    | cons d b1 =>
      by_cases h : c = d
      · subst h
        simpa [lcp, List.cons_prefix_cons] using ih b1
      · exact ⟨c :: a1, by simp [lcp, h]⟩

theorem lcp_pfx_right : ∀ a b : List Char, lcp a b <+: b := by
  intro a
  induction a with
  | nil => intro b; cases b <;> exact ⟨_, rfl⟩
  | cons c a1 ih =>
    intro b
    cases b with
    | nil => exact ⟨[], rfl⟩
    | cons d b1 =>
      by_cases h : c = d
      · subst h
        simpa [lcp, List.cons_prefix_cons] using ih b1
      · exact ⟨d :: b1, by simp [lcp, h]⟩

theorem pfx_lcp : ∀ q a b : List Char, q <+: a → q <+: b → q <+: lcp a b := by
  intro q
  induction q with
  | nil => intro a b _ _; exact ⟨lcp a b, rfl⟩
  | cons x q1 ih =>
    intro a b ha hb
    obtain ⟨ta, hta⟩ := ha
    obtain ⟨tb, htb⟩ := hb
    subst hta
    subst htb
    simpa [lcp, List.cons_prefix_cons] using ih (q1 ++ ta) (q1 ++ tb)
      ⟨ta, rfl⟩ ⟨tb, rfl⟩

theorem nullChar_not_mem_of_pfx {p a : List Char} (h : p <+: a)
    (ha : nullChar ∉ a) : nullChar ∉ p := by
  intro hp
  exact ha (h.sublist.subset hp)

/-- On a NUL-free first string, one `rootStep` of the source computes
exactly the longest common prefix: the scan stops at the first real
mismatch, or at the second string's NUL terminator. -/
theorem rootStep_eq_lcp : ∀ a b : List Char, nullChar ∉ a → rootStep a b = lcp a b := by
  intro a
  induction a with
  | nil => intro b _; cases b <;> simp [rootStep, cppMismatchLen, lcp]
  | cons c a1 ih =>
    intro b ha
    have hc : c ≠ nullChar := by
      intro h; exact ha (h ▸ List.mem_cons_self c a1)
    have ha1 : nullChar ∉ a1 := fun h => ha (List.mem_cons_of_mem c h)
    cases b with
    | nil =>
      simp [rootStep, cppMismatchLen, lcp, hc]
    | cons d b1 =>
      by_cases h : c = d
      · subst h
        have := ih b1 ha1
        simp only [rootStep] at this
        simp [rootStep, cppMismatchLen, lcp, this]
      · simp [rootStep, cppMismatchLen, lcp, h]

theorem foldl_lcp_pfx_acc : ∀ (l : List (List Char)) (acc : List Char),
    l.foldl lcp acc <+: acc := by
  intro l
  induction l with
  | nil => intro acc; exact ⟨[], by simp⟩
  | cons s l1 ih =>
    intro acc
    exact (ih (lcp acc s)).trans (lcp_pfx_left acc s)

theorem foldl_lcp_pfx_mem : ∀ (l : List (List Char)) (acc x : List Char),
    x ∈ l → l.foldl lcp acc <+: x := by
  intro l
  induction l with
  | nil => intro acc x hx; cases hx
  | cons s l1 ih =>
    intro acc x hx
    rcases List.mem_cons.mp hx with h | h
    · subst h
      exact (foldl_lcp_pfx_acc l1 (lcp acc x)).trans (lcp_pfx_right acc x)
    · exact ih (lcp acc s) x h

theorem pfx_foldl_lcp : ∀ (l : List (List Char)) (acc q : List Char),
    q <+: acc → (∀ x ∈ l, q <+: x) → q <+: l.foldl lcp acc := by
  intro l
  induction l with
  | nil => intro acc q hq _; exact hq
  | cons s l1 ih =>
    intro acc q hq hl
    exact ih (lcp acc s) q
      (pfx_lcp q acc s hq (hl s (List.mem_cons_self s l1)))
      (fun x hx => hl x (List.mem_cons_of_mem s hx))

theorem foldl_rootStep_eq_lcp : ∀ (l : List (List Char)) (acc : List Char),
    nullChar ∉ acc → l.foldl rootStep acc = l.foldl lcp acc := by
  intro l
  induction l with
  | nil => intro acc _; rfl
  | cons s l1 ih =>
    intro acc hacc
    have h1 : rootStep acc s = lcp acc s := rootStep_eq_lcp acc s hacc
    have h2 : nullChar ∉ lcp acc s :=
      nullChar_not_mem_of_pfx (lcp_pfx_left acc s) hacc
    simp only [List.foldl_cons, h1]
    exact ih (lcp acc s) h2

/-- The value computed by `getRoot`'s loop is a prefix of every stored
string (NUL-free strings). -/
theorem computeRootStr_pfx (l : List (List Char))
    (hnul : ∀ x ∈ l, nullChar ∉ x) : ∀ x ∈ l, computeRootStr l <+: x := by
  intro x hx
  cases l with
  | nil => cases hx
  | cons r0 rest =>
    have h0 : nullChar ∉ r0 := hnul r0 (List.mem_cons_self r0 rest)
    have : computeRootStr (r0 :: rest) = (r0 :: rest).foldl lcp r0 := by
      simpa [computeRootStr] using foldl_rootStep_eq_lcp (r0 :: rest) r0 h0
    rw [this]
    exact foldl_lcp_pfx_mem (r0 :: rest) r0 x hx

/-- The value computed by `getRoot`'s loop is the longest common prefix:
any common prefix of all stored strings is a prefix of it (NUL-free
strings, non-empty list). -/
theorem pfx_computeRootStr (l : List (List Char)) (hne : l ≠ [])
    (hnul : ∀ x ∈ l, nullChar ∉ x) (q : List Char)
    (hq : ∀ x ∈ l, q <+: x) : q <+: computeRootStr l := by
  cases l with
  | nil => exact absurd rfl hne
  | cons r0 rest =>
    have h0 : nullChar ∉ r0 := hnul r0 (List.mem_cons_self r0 rest)
    have : computeRootStr (r0 :: rest) = (r0 :: rest).foldl lcp r0 := by
      simpa [computeRootStr] using foldl_rootStep_eq_lcp (r0 :: rest) r0 h0
    rw [this]
    exact pfx_foldl_lcp (r0 :: rest) r0 q (hq r0 (List.mem_cons_self r0 rest)) hq

/-! Characterization of the collector and the two-pass driver. -/

/-- `handleResults` appends exactly the prefix-filtered displays and the
prefix-stripped insertable texts, and touches no other field. -/
theorem handleResults_eq : ∀ (rs : List CompletionResult) (s : REPLCompletions),
    handleResults s rs =
      { s with
        CompletionStrings := s.CompletionStrings ++ storedDisplays s.PrefixStr rs,
        CompletionInsertableStrings :=
          s.CompletionInsertableStrings ++ storedInsertables s.PrefixStr rs } := by
  intro rs
  induction rs with
  | nil =>
    intro s
    simp [handleResults, storedDisplays, storedInsertables]
  | cons r rs1 ih =>
    intro s
    by_cases h : s.PrefixStr <+: toInsertableString r
    · rw [show handleResults s (r :: rs1) = handleResults
          { s with
            CompletionStrings := s.CompletionStrings ++ [r.printed],
            CompletionInsertableStrings :=
              s.CompletionInsertableStrings ++
                [(toInsertableString r).drop s.PrefixStr.length] } rs1 by
        simp [handleResults, h]]
      rw [ih]
      simp [storedDisplays, storedInsertables, h, List.filter_cons]
    · rw [show handleResults s (r :: rs1) = handleResults s rs1 by
        simp [handleResults, h]]
      rw [ih]
      simp [storedDisplays, storedInsertables, h, List.filter_cons]

theorem foldl_addConsumer (cs : List Nat) : ∀ d : DiagnosticsEngine,
    cs.foldl DiagnosticsEngine.addConsumer d =
      { Consumers := d.Consumers ++ cs, HadAnyError := d.HadAnyError } := by
  induction cs with
  | nil => intro d; simp
  | cons c cs1 ih =>
    intro d
    rw [List.foldl_cons, ih]
    simp [DiagnosticsEngine.addConsumer]

/-- `doCodeCompletion` returns the translation unit with its declaration
list restored, every consumer reattached and the error flag cleared, and
the session extended by the pass's collector output. -/
theorem doCodeCompletion_eq (eng : ExternalEngine) (tu : TranslationUnit)
    (code : List Char) (s : REPLCompletions) :
    doCodeCompletion eng tu code s =
      ({ Decls := tu.Decls,
         Diags := { Consumers := tu.Diags.Consumers, HadAnyError := false } },
       handleResults s (eng.results code)) := by
  simp [doCodeCompletion, DiagnosticsEngine.takeConsumers,
    DiagnosticsEngine.resetHadAnyError, foldl_addConsumer, List.take_left]

/-- `populate` always stores the classification of its final insertable
list. -/
theorem populate_state_eq (eng : ExternalEngine) (tu : TranslationUnit)
    (code : List Char) (s : REPLCompletions) :
    (populate eng tu code s).2.State =
      classifyState (populate eng tu code s).2.CompletionInsertableStrings := rfl

/-- `populate` when the last token of the augmented buffer is an
identifier or keyword: the prefix becomes that token's text, the second
pass runs on the source truncated at the token's start offset, and the
final candidate lists are the first pass's stored output followed by the
second pass's stored output. -/
theorem populate_eq_pass2 (eng : ExternalEngine) (tu : TranslationUnit)
    (code : List Char) (s : REPLCompletions) (t : Token)
    (h1 : (eng.tokens code).getLast? = some t)
    (h2 : t.isIdentOrKeyword = true) :
    populate eng tu code s =
      ({ Decls := tu.Decls,
         Diags := { Consumers := tu.Diags.Consumers, HadAnyError := false } },
       { State := classifyState
           (storedInsertables [] (eng.results code) ++
             storedInsertables t.text (eng.results (code.take t.offset))),
         PrefixStr := t.text, Root := none, CurrentCompletionIdx := sentinelIdx,
         CompletionStrings :=
           storedDisplays [] (eng.results code) ++
             storedDisplays t.text (eng.results (code.take t.offset)),
         CompletionInsertableStrings :=
           storedInsertables [] (eng.results code) ++
             storedInsertables t.text (eng.results (code.take t.offset)) }) := by
  simp [populate, h1, h2, doCodeCompletion_eq, handleResults_eq]

/-- `populate` when the augmented buffer has no tokens: a single pass with
the empty prefix. -/
theorem populate_eq_pass1_none (eng : ExternalEngine) (tu : TranslationUnit)
    (code : List Char) (s : REPLCompletions)
    (h1 : (eng.tokens code).getLast? = none) :
    populate eng tu code s =
      ({ Decls := tu.Decls,
         Diags := { Consumers := tu.Diags.Consumers, HadAnyError := false } },
       { State := classifyState (storedInsertables [] (eng.results code)),
         PrefixStr := [], Root := none, CurrentCompletionIdx := sentinelIdx,
         CompletionStrings := storedDisplays [] (eng.results code),
         CompletionInsertableStrings :=
           storedInsertables [] (eng.results code) }) := by
  simp [populate, h1, doCodeCompletion_eq, handleResults_eq]

/-- `populate` when the last token is neither identifier nor keyword: a
single pass with the empty prefix. -/
theorem populate_eq_pass1_other (eng : ExternalEngine) (tu : TranslationUnit)
    (code : List Char) (s : REPLCompletions) (t : Token)
    (h1 : (eng.tokens code).getLast? = some t)
    (h2 : t.isIdentOrKeyword = false) :
    populate eng tu code s =
      ({ Decls := tu.Decls,
         Diags := { Consumers := tu.Diags.Consumers, HadAnyError := false } },
       { State := classifyState (storedInsertables [] (eng.results code)),
         PrefixStr := [], Root := none, CurrentCompletionIdx := sentinelIdx,
         CompletionStrings := storedDisplays [] (eng.results code),
         CompletionInsertableStrings :=
           storedInsertables [] (eng.results code) }) := by
  simp [populate, h1, h2, doCodeCompletion_eq, handleResults_eq]

/-! Lemmas about the navigation accessors. -/

theorem getRoot_snd_fields (s : REPLCompletions) :
    (getRoot s).2.CompletionInsertableStrings = s.CompletionInsertableStrings ∧
    (getRoot s).2.CurrentCompletionIdx = s.CurrentCompletionIdx ∧
    (getRoot s).2.CompletionStrings = s.CompletionStrings ∧
    (getRoot s).2.PrefixStr = s.PrefixStr ∧
    (getRoot s).2.State = s.State := by
  cases h : s.Root with
  | some r => simp [getRoot, h]
  | none =>
    by_cases he : s.CompletionInsertableStrings = [] <;> simp [getRoot, h, he]

theorem getRoot_cached (s : REPLCompletions) (r : List Char)
    (h : s.Root = some r) : getRoot s = (r, s) := by
  simp [getRoot, h]

theorem getRoot_compute (s : REPLCompletions) (h : s.Root = none)
    (hne : s.CompletionInsertableStrings ≠ []) :
    getRoot s =
      (computeRootStr s.CompletionInsertableStrings,
        { s with Root := some (computeRootStr s.CompletionInsertableStrings) }) := by
  simp [getRoot, h, hne]

theorem getRoot_empty_list (s : REPLCompletions) (h : s.Root = none)
    (he : s.CompletionInsertableStrings = []) :
    getRoot s = ([], { s with Root := some [] }) := by
  simp [getRoot, h, he]

theorem wrapIdx_eq (j N : Nat) (hj : j < N) :
    (if N ≤ j + 1 then 0 else j + 1) = (j + 1) % N := by
  by_cases h : j + 1 = N
  · subst h; simp [Nat.mod_self]
  · have hlt : j + 1 < N := by omega
    rw [if_neg (by omega), Nat.mod_eq_of_lt hlt]

theorem succ_mod_eq (k N : Nat) : (k + 1) % N = (k % N + 1) % N := by
  conv_lhs => rw [← Nat.mod_add_div k N]
  rw [Nat.add_right_comm, Nat.add_mul_mod_self_left]

/-- The first `getNextStem` call after a `populate`: the sentinel cursor
wraps (as a `size_t`) to zero, so candidate `0` is selected, and the root
is computed and cached. -/
theorem getNextStem_first (s : REPLCompletions)
    (hne : s.CompletionInsertableStrings ≠ [])
    (hI : s.CurrentCompletionIdx = sentinelIdx) (hR : s.Root = none) :
    getNextStem s =
      ((s.CompletionInsertableStrings.getD 0 []).drop
          (computeRootStr s.CompletionInsertableStrings).length,
        { s with CurrentCompletionIdx := 0,
                 Root := some (computeRootStr s.CompletionInsertableStrings) }) := by
  have h1 : (sentinelIdx + 1) % USIZE = 0 := by decide
  have hlen : ¬ (s.CompletionInsertableStrings.length ≤ 0) := by
    have := List.length_pos.mpr hne
    omega
  simp only [getNextStem, if_neg hne, hI, h1, if_neg hlen]
  simp [getRoot, hR, hne]

/-- Any later `getNextStem` call: with the cursor on a valid candidate and
the root cached, the cursor advances by one, wrapping to zero past the
end. -/
theorem getNextStem_later (s : REPLCompletions) (r : List Char)
    (hjlt : s.CurrentCompletionIdx < s.CompletionInsertableStrings.length)
    (hR : s.Root = some r)
    (hU : s.CompletionInsertableStrings.length < USIZE) :
    getNextStem s =
      ((s.CompletionInsertableStrings.getD
            ((s.CurrentCompletionIdx + 1) % s.CompletionInsertableStrings.length)
            []).drop r.length,
        { s with CurrentCompletionIdx :=
            (s.CurrentCompletionIdx + 1) % s.CompletionInsertableStrings.length }) := by
  have hne : s.CompletionInsertableStrings ≠ [] := by
    intro h
    rw [h] at hjlt
    simp at hjlt
  have hmod : (s.CurrentCompletionIdx + 1) % USIZE = s.CurrentCompletionIdx + 1 :=
    Nat.mod_eq_of_lt (by omega)
  simp only [getNextStem, if_neg hne, hmod, wrapIdx_eq _ _ hjlt]
  simp [getRoot, hR]

/-- The session after `k + 1` calls of `getNextStem`, starting from a
freshly populated session: the cursor sits on candidate `k mod N` and the
root is cached. -/
theorem applyNext_eq (s : REPLCompletions)
    (hI : s.CurrentCompletionIdx = sentinelIdx) (hR : s.Root = none)
    (hne : s.CompletionInsertableStrings ≠ [])
    (hU : s.CompletionInsertableStrings.length < USIZE) :
    ∀ k, applyNext s (k + 1) =
      { s with
        CurrentCompletionIdx := k % s.CompletionInsertableStrings.length,
        Root := some (computeRootStr s.CompletionInsertableStrings) } := by
  intro k
  induction k with
  | zero =>
    show (getNextStem (applyNext s 0)).2 = _
    rw [show applyNext s 0 = s from rfl, getNextStem_first s hne hI hR]
    simp
  | succ k ih =>
    show (getNextStem (applyNext s (k + 1))).2 = _
    rw [ih]
    rw [getNextStem_later _ (computeRootStr s.CompletionInsertableStrings)
      (by simpa using Nat.mod_lt k (List.length_pos.mpr hne)) rfl (by simpa using hU)]
    simp [← succ_mod_eq]

theorem populate_tu_eq (eng : ExternalEngine) (tu : TranslationUnit)
    (code : List Char) (s : REPLCompletions) :
    (populate eng tu code s).1 =
      { Decls := tu.Decls,
        Diags := { Consumers := tu.Diags.Consumers, HadAnyError := false } } := by
  cases hL : (eng.tokens code).getLast? with
  | none => simp [populate, hL, doCodeCompletion_eq]
  | some t =>
    cases ht : t.isIdentOrKeyword <;> simp [populate, hL, ht, doCodeCompletion_eq]

theorem populate_root_none (eng : ExternalEngine) (tu : TranslationUnit)
    (code : List Char) (s : REPLCompletions) :
    (populate eng tu code s).2.Root = none := by
  cases hL : (eng.tokens code).getLast? with
  | none => rw [populate_eq_pass1_none eng tu code s hL]
  | some t =>
    cases ht : t.isIdentOrKeyword with
    | true => rw [populate_eq_pass2 eng tu code s t hL ht]
    | false => rw [populate_eq_pass1_other eng tu code s t hL ht]

theorem classifyState_iff (l : List (List Char)) :
    (classifyState l = CompletionState.Empty ↔ l = []) ∧
    (classifyState l = CompletionState.Unique ↔ l.length = 1) ∧
    (classifyState l = CompletionState.CompletedRoot ↔ 2 ≤ l.length) := by
  unfold classifyState
  by_cases h0 : l = []
  · subst h0; simp
  · have hpos : 0 < l.length := List.length_pos.mpr h0
    by_cases h1 : l.length = 1
    · simp [h0, h1]
    · refine ⟨by simp [h0, h1], by simp [h0, h1], ?_⟩
      simp only [if_neg h0, if_neg h1]
      constructor
      · intro _; omega
      · intro _; trivial

theorem toInsertableStringAux_eq : ∀ (cs : List Chunk) (acc : List Char),
    toInsertableStringAux acc cs =
      acc ++ ((cs.takeWhile fun c => c.kind.isLiteral).map Chunk.text).flatten := by
  intro cs
  induction cs with
  | nil => intro acc; simp [toInsertableStringAux]
  | cons c cs1 ih =>
    intro acc
    obtain ⟨k, txt⟩ := c
    cases k <;>
      simp [toInsertableStringAux, ChunkKind.isLiteral, ih, List.takeWhile_cons,
        List.append_assoc]

theorem getq_eq_getD : ∀ (l : List (List Char)) (i : Nat), i < l.length →
    l.get? i = some (l.getD i []) := by
  intro l
  induction l with
  | nil => intro i hi; simp at hi
  | cons x l1 ih =>
    intro i hi
    cases i with
    | zero => rfl
    | succ j =>
      have := ih j (by simpa using hi)
      simpa [List.getD] using this

/-- Claim C2: every `populate` call (and each `doCodeCompletion` pass
inside it) restores the borrowed program state before returning: the
translation unit's persistent declaration list is restored to its
pre-pass contents (so in particular to its pre-pass count), every
diagnostic consumer detached at the start of a pass is reattached, and the
diagnostics engine's had-any-error flag is cleared. -/
theorem c2_populate_restores_program_state (eng : ExternalEngine)
    (tu : TranslationUnit) (code : List Char) (s : REPLCompletions) :
    (doCodeCompletion eng tu code s).1.Decls = tu.Decls ∧
    (doCodeCompletion eng tu code s).1.Diags.Consumers = tu.Diags.Consumers ∧
    (doCodeCompletion eng tu code s).1.Diags.HadAnyError = false ∧
    (populate eng tu code s).1.Decls = tu.Decls ∧
    (populate eng tu code s).1.Diags.Consumers = tu.Diags.Consumers ∧
    (populate eng tu code s).1.Diags.HadAnyError = false := by
  rw [doCodeCompletion_eq, populate_tu_eq]
  exact ⟨rfl, rfl, rfl, rfl, rfl, rfl⟩

/-- Claim C5: the insertable string of a raw completion result is the
concatenation of the texts of the leading literal chunks (text, parens,
brackets, dot, comma), truncating at the first chunk of a call-parameter,
optional-begin, or type-annotation kind; the chunk sequence
`[Text "foo", CallParameterBegin, CallParameterName "x"]` yields exactly
`"foo"`; the stored display string is the full rendered candidate,
untruncated. -/
theorem c5_toInsertableString_literal_chunks :
    (∀ r : CompletionResult, toInsertableString r = insertableStringSpec r) ∧
    toInsertableString
        ⟨[⟨ChunkKind.Text, "foo".data⟩, ⟨ChunkKind.CallParameterBegin, []⟩,
          ⟨ChunkKind.CallParameterName, "x".data⟩], []⟩ = "foo".data ∧
    (∀ (s : REPLCompletions) (rs : List CompletionResult),
      (handleResults s rs).CompletionStrings =
        s.CompletionStrings ++
          (rs.filter fun r => decide (s.PrefixStr <+: toInsertableString r)).map
            CompletionResult.printed) := by
  refine ⟨?_, by decide, ?_⟩
  · intro r
    simpa [toInsertableString, insertableStringSpec] using
      toInsertableStringAux_eq r.chunks []
  · intro s rs
    rw [handleResults_eq]
    simp [storedDisplays]

/-- Claim C6: when `populate` returns, the state is `Empty` iff the
candidate list is empty, `Unique` iff it has exactly one entry, and
`CompletedRoot` iff it has two or more. -/
theorem c6_populate_state_classification (eng : ExternalEngine)
    (tu : TranslationUnit) (code : List Char) (s : REPLCompletions) :
    ((populate eng tu code s).2.State = CompletionState.Empty ↔
      (populate eng tu code s).2.CompletionInsertableStrings = []) ∧
    ((populate eng tu code s).2.State = CompletionState.Unique ↔
      (populate eng tu code s).2.CompletionInsertableStrings.length = 1) ∧
    ((populate eng tu code s).2.State = CompletionState.CompletedRoot ↔
      2 ≤ (populate eng tu code s).2.CompletionInsertableStrings.length) := by
  rw [populate_state_eq]
  exact classifyState_iff _

/-- Claim C4: with no cached root, `getRoot` returns the longest string
that is a prefix of every stored insertable string (the empty string for
an empty candidate list), caches it (a second call returns the cache
unchanged), and `populate` invalidates the cache.  The NUL-freeness
hypothesis reflects that the stored strings are C++ `std::string`s read
through their NUL terminator by the scan. -/
theorem c4_getRoot_lcp (s : REPLCompletions) (hR : s.Root = none)
    (hnul : ∀ x ∈ s.CompletionInsertableStrings, nullChar ∉ x) :
    (s.CompletionInsertableStrings = [] → (getRoot s).1 = []) ∧
    (∀ x ∈ s.CompletionInsertableStrings, (getRoot s).1 <+: x) ∧
    (∀ q : List Char, (∀ x ∈ s.CompletionInsertableStrings, q <+: x) →
      s.CompletionInsertableStrings ≠ [] → q.length ≤ (getRoot s).1.length) ∧
    (getRoot s).2.Root = some (getRoot s).1 ∧
    getRoot (getRoot s).2 = ((getRoot s).1, (getRoot s).2) ∧
    (∀ (eng : ExternalEngine) (tu : TranslationUnit) (code : List Char),
      (populate eng tu code s).2.Root = none) := by
  by_cases he : s.CompletionInsertableStrings = []
  · rw [getRoot_empty_list s hR he]
    refine ⟨fun _ => rfl, ?_, ?_, rfl, getRoot_cached _ _ rfl, ?_⟩
    · intro x hx
      rw [he] at hx
      cases hx
    · intro q _ hne
      exact absurd he hne
    · intro eng tu code
      exact populate_root_none eng tu code s
  · rw [getRoot_compute s hR he]
    refine ⟨fun h => absurd h he, ?_, ?_, rfl, getRoot_cached _ _ rfl, ?_⟩
    · intro x hx
      exact computeRootStr_pfx s.CompletionInsertableStrings hnul x hx
    · intro q hq _
      exact (pfx_computeRootStr s.CompletionInsertableStrings he hnul q hq).length_le
    · intro eng tu code
      exact populate_root_none eng tu code s

/-- Concrete session for the C4 witness: two NUL-free stored candidates
`"pendValue"` and `"pend"`. -/
def sessC4 : REPLCompletions :=
  { sessEx with CompletionInsertableStrings := ["pendValue".data, "pend".data] }

/-- Witness for C4: on candidates `"pendValue"` and `"pend"` the computed
root is `"pend"`, and the instantiated claim holds. -/
theorem c4_getRoot_lcp_witness :
    (getRoot sessC4).1 = "pend".data ∧
    ((sessC4.CompletionInsertableStrings = [] → (getRoot sessC4).1 = []) ∧
     (∀ x ∈ sessC4.CompletionInsertableStrings, (getRoot sessC4).1 <+: x) ∧
     (∀ q : List Char, (∀ x ∈ sessC4.CompletionInsertableStrings, q <+: x) →
       sessC4.CompletionInsertableStrings ≠ [] →
         q.length ≤ (getRoot sessC4).1.length) ∧
     (getRoot sessC4).2.Root = some (getRoot sessC4).1 ∧
     getRoot (getRoot sessC4).2 = ((getRoot sessC4).1, (getRoot sessC4).2) ∧
     (∀ (eng : ExternalEngine) (tu : TranslationUnit) (code : List Char),
       (populate eng tu code sessC4).2.Root = none)) :=
  ⟨by decide, c4_getRoot_lcp sessC4 rfl (by decide)⟩

/-- Claim C7: with no candidates `getNextStem` returns an empty result;
after a `populate` that stored `N ≥ 1` candidates, the `k + 1`-st
`getNextStem` call returns the stem (insertable text with the common root
dropped) of candidate `k mod N`: the first call selects candidate `0`,
each call advances the cursor by one wrapping to zero past the end, and
`N` calls yield the `N` stems in storage order before the cycle repeats. -/
theorem c7_getNextStem_cycles (s : REPLCompletions)
    (hI : s.CurrentCompletionIdx = sentinelIdx) (hR : s.Root = none)
    (hne : s.CompletionInsertableStrings ≠ [])
    (hU : s.CompletionInsertableStrings.length < USIZE) :
    (∀ s0 : REPLCompletions, s0.CompletionInsertableStrings = [] →
      getNextStem s0 = ([], s0)) ∧
    ∀ k, (getNextStem (applyNext s k)).1 =
      (s.CompletionInsertableStrings.getD
          (k % s.CompletionInsertableStrings.length) []).drop
        (computeRootStr s.CompletionInsertableStrings).length := by
  constructor
  · intro s0 h0
    simp [getNextStem, h0]
  · intro k
    cases k with
    | zero =>
      rw [show applyNext s 0 = s from rfl, getNextStem_first s hne hI hR]
      simp
    | succ k =>
      rw [applyNext_eq s hI hR hne hU k]
      rw [getNextStem_later _ (computeRootStr s.CompletionInsertableStrings)
        (by simpa using Nat.mod_lt k (List.length_pos.mpr hne)) rfl
        (by simpa using hU)]
      simp [← succ_mod_eq]

/-- Concrete session for the C7 witness: candidates `"ing"` and
`"ingProtocol"` (root `"ing"`), cursor at the sentinel. -/
def sessC7 : REPLCompletions :=
  { sessEx with
    CurrentCompletionIdx := sentinelIdx,
    CompletionInsertableStrings := ["ing".data, "ingProtocol".data] }

/-- Witness for C7: the first call yields the stem of candidate 0, the
second the stem of candidate 1, and the third wraps back to candidate 0. -/
theorem c7_getNextStem_cycles_witness :
    (getNextStem (applyNext sessC7 0)).1 = [] ∧
    (getNextStem (applyNext sessC7 1)).1 = "Protocol".data ∧
    (getNextStem (applyNext sessC7 2)).1 = [] :=
  ⟨Eq.trans ((c7_getNextStem_cycles sessC7 rfl rfl (by decide) (by decide)).2 0)
      (by decide),
   Eq.trans ((c7_getNextStem_cycles sessC7 rfl rfl (by decide) (by decide)).2 1)
      (by decide),
   Eq.trans ((c7_getNextStem_cycles sessC7 rfl rfl (by decide) (by decide)).2 2)
      (by decide)⟩

/-- Claim C8: `getPreviousStem` returns an empty result whenever the
cursor is unset (still the sentinel) or the candidate list is empty, and
otherwise returns the stem of the currently selected candidate without
changing the cursor — it never moves backward through the list. -/
theorem c8_getPreviousStem_reads_current (s : REPLCompletions)
    (hU : s.CompletionInsertableStrings.length < USIZE) :
    ((s.CurrentCompletionIdx = sentinelIdx ∨ s.CompletionInsertableStrings = []) →
      getPreviousStem s = some ([], s)) ∧
    (s.CurrentCompletionIdx < s.CompletionInsertableStrings.length →
      getPreviousStem s =
        some ((s.CompletionInsertableStrings.getD s.CurrentCompletionIdx []).drop
            (getRoot s).1.length, (getRoot s).2) ∧
      (getRoot s).2.CurrentCompletionIdx = s.CurrentCompletionIdx ∧
      (getRoot s).2.CompletionInsertableStrings = s.CompletionInsertableStrings) := by
  constructor
  · intro h
    simp [getPreviousStem, h]
  · intro hlt
    have hne : s.CompletionInsertableStrings ≠ [] := by
      intro h0
      rw [h0] at hlt
      simp at hlt
    have hsent : s.CurrentCompletionIdx ≠ sentinelIdx := by
      have h1 : sentinelIdx = USIZE - 1 := rfl
      omega
    have hguard : ¬ (s.CurrentCompletionIdx = sentinelIdx ∨
        s.CompletionInsertableStrings = []) := by
      push_neg
      exact ⟨hsent, hne⟩
    refine ⟨?_, (getRoot_snd_fields s).2.1, (getRoot_snd_fields s).1⟩
    simp only [getPreviousStem, if_neg hguard]
    rw [(getRoot_snd_fields s).1, getq_eq_getD _ _ hlt]
    rfl

/-- Concrete session for the C8 witness: cursor on candidate 1 of
`["a", "ab"]` (root `"a"`). -/
def sessC8 : REPLCompletions :=
  { sessEx with
    CurrentCompletionIdx := 1,
    CompletionInsertableStrings := ["a".data, "ab".data] }

/-- Witness for C8 at a concrete session with a set, in-bounds cursor. -/
theorem c8_getPreviousStem_reads_current_witness :
    getPreviousStem sessC8 =
      some ((sessC8.CompletionInsertableStrings.getD
            sessC8.CurrentCompletionIdx []).drop (getRoot sessC8).1.length,
        (getRoot sessC8).2) ∧
    (getRoot sessC8).2.CurrentCompletionIdx = sessC8.CurrentCompletionIdx ∧
    (getRoot sessC8).2.CompletionInsertableStrings =
      sessC8.CompletionInsertableStrings :=
  (c8_getPreviousStem_reads_current sessC8 (by decide)).2 (by decide)

/-- Claim C9: `reset` sets the state to `Invalid` and changes nothing
else — prefix, root cache, cursor and both candidate lists keep their
values — and a read accessor invoked right after `reset` returns without
crashing: `getRoot` and `getNextStem` are total (their accesses are
guarded or provably in bounds), and `getPreviousStem`, the one accessor
with an unguarded vector access, stays in bounds for any session whose
cursor is the sentinel or a valid index. -/
theorem c9_reset_frame (s : REPLCompletions)
    (h : s.CurrentCompletionIdx = sentinelIdx ∨
      s.CurrentCompletionIdx < s.CompletionInsertableStrings.length) :
    (reset s).State = CompletionState.Invalid ∧
    (reset s).PrefixStr = s.PrefixStr ∧
    (reset s).Root = s.Root ∧
    (reset s).CurrentCompletionIdx = s.CurrentCompletionIdx ∧
    (reset s).CompletionStrings = s.CompletionStrings ∧
    (reset s).CompletionInsertableStrings = s.CompletionInsertableStrings ∧
    (getPreviousStem (reset s)).isSome = true := by
  refine ⟨rfl, rfl, rfl, rfl, rfl, rfl, ?_⟩
  rcases h with h | h
  · simp [getPreviousStem, reset, h]
  · by_cases hsent : s.CurrentCompletionIdx = sentinelIdx
    · simp [getPreviousStem, reset, hsent]
    · have hne : s.CompletionInsertableStrings ≠ [] := by
        intro h0
        rw [h0] at h
        simp at h
      have hguard : ¬ ((reset s).CurrentCompletionIdx = sentinelIdx ∨
          (reset s).CompletionInsertableStrings = []) := by
        push_neg
        exact ⟨hsent, hne⟩
      simp only [getPreviousStem, if_neg hguard]
      rw [show (getRoot (reset s)).2.CompletionInsertableStrings =
            (reset s).CompletionInsertableStrings from (getRoot_snd_fields _).1]
      rw [getq_eq_getD _ _ (by simpa [reset] using h)]
      rfl

/-- Concrete session for the C9 witness: sentinel cursor. -/
def sessC9 : REPLCompletions :=
  { sessEx with
    CurrentCompletionIdx := sentinelIdx,
    PrefixStr := "ab".data,
    CompletionInsertableStrings := ["x".data] }

/-- Witness for C9 at a concrete session. -/
theorem c9_reset_frame_witness :
    (reset sessC9).State = CompletionState.Invalid ∧
    (reset sessC9).PrefixStr = sessC9.PrefixStr ∧
    (reset sessC9).Root = sessC9.Root ∧
    (reset sessC9).CurrentCompletionIdx = sessC9.CurrentCompletionIdx ∧
    (reset sessC9).CompletionStrings = sessC9.CompletionStrings ∧
    (reset sessC9).CompletionInsertableStrings =
      sessC9.CompletionInsertableStrings ∧
    (getPreviousStem (reset sessC9)).isSome = true :=
  c9_reset_frame sessC9 (Or.inl rfl)

/-- Counterexample to claim C1 as stated: with the concrete engine
`engEx`, pass 1 (run with the empty prefix) stores the candidate `"zzz"`,
the last token of the augmented buffer is the identifier `"ab"`, and the
second pass (on the truncated source) stores `"c"`.  The final candidate
list is `["zzz", "c"]`, not the second pass's output `["c"]` alone: the
first pass's stored candidates are never removed. -/
theorem c1_first_pass_retained_cex :
    (populate engEx tuEx "ab".data sessEx).2.CompletionInsertableStrings =
      ["zzz".data, "c".data] ∧
    storedInsertables "ab".data (engEx.results (("ab".data).take 0)) =
      ["c".data] ∧
    (populate engEx tuEx "ab".data sessEx).2.CompletionInsertableStrings ≠
      storedInsertables "ab".data (engEx.results (("ab".data).take 0)) :=
  ⟨by decide, by decide, by decide⟩

/-- Claim C1 (amended): when the final token of the augmented buffer is an
identifier or keyword, `populate` sets the prefix to that token's text and
re-runs the completion pass using only the source truncated at the token's
start offset; the candidate lists on return are the first pass's stored
output (filtered against the empty prefix, so all of it) followed by the
second pass's stored output — the first pass's candidates are retained,
not discarded. -/
theorem c1_two_pass_lists (eng : ExternalEngine) (tu : TranslationUnit)
    (code : List Char) (s : REPLCompletions) (t : Token)
    (h1 : (eng.tokens code).getLast? = some t)
    (h2 : t.isIdentOrKeyword = true) :
    (populate eng tu code s).2.PrefixStr = t.text ∧
    (populate eng tu code s).2.CompletionInsertableStrings =
      storedInsertables [] (eng.results code) ++
        storedInsertables t.text (eng.results (code.take t.offset)) ∧
    (populate eng tu code s).2.CompletionStrings =
      storedDisplays [] (eng.results code) ++
        storedDisplays t.text (eng.results (code.take t.offset)) := by
  rw [populate_eq_pass2 eng tu code s t h1 h2]
  exact ⟨rfl, rfl, rfl⟩

/-- The last token the concrete engine `engEx` reports. -/
def tokEx : Token := ⟨TokenKind.identifier, "ab".data, 0⟩

/-- Witness for the amended C1 at the concrete engine. -/
theorem c1_two_pass_lists_witness :
    (populate engEx tuEx "ab".data sessEx).2.PrefixStr = tokEx.text ∧
    (populate engEx tuEx "ab".data sessEx).2.CompletionInsertableStrings =
      storedInsertables [] (engEx.results "ab".data) ++
        storedInsertables tokEx.text
          (engEx.results (("ab".data).take tokEx.offset)) ∧
    (populate engEx tuEx "ab".data sessEx).2.CompletionStrings =
      storedDisplays [] (engEx.results "ab".data) ++
        storedDisplays tokEx.text
          (engEx.results (("ab".data).take tokEx.offset)) :=
  c1_two_pass_lists engEx tuEx "ab".data sessEx tokEx (by decide) (by decide)

/-- Counterexample to claim C3 as stated: after the two-pass `populate`
with the concrete engine `engEx`, the session's prefix is `"ab"`, but the
stored entry `"zzz"` was collected during pass 1 under the empty prefix:
re-prepending its stripped prefix (the empty string) yields `"zzz"`, which
does not start with `"ab"`, and no raw candidate of either pass has
insertable text `"abzzz"`, so the entry is not the final prefix's
stripped remainder of any candidate. -/
theorem c3_stale_first_pass_entry_cex :
    (populate engEx tuEx "ab".data sessEx).2.PrefixStr = "ab".data ∧
    "zzz".data ∈
      (populate engEx tuEx "ab".data sessEx).2.CompletionInsertableStrings ∧
    ¬ ("ab".data <+: "zzz".data) ∧
    ("ab".data ++ "zzz".data) ∉
      ((engEx.results "ab".data ++ engEx.results (("ab".data).take 0)).map
        toInsertableString) :=
  ⟨by decide, by decide, by decide, by decide⟩

/-- Claim C3 (amended): the prefix filter (a case-sensitive, unnormalized
byte-prefix test) is applied before insertion, and every entry a
completion pass stores is the insertable text of one of that pass's raw
results with that pass's prefix stripped from its front — so re-prepending
the prefix in effect when the entry was stored recovers an insertable
string that starts with that pass's prefix.  (When a second pass runs,
first-pass entries were filtered against the empty prefix and need not
start with the final prefix.) -/
theorem c3_per_pass_filter_invariant (s : REPLCompletions)
    (rs : List CompletionResult) :
    (handleResults s rs).CompletionInsertableStrings =
      s.CompletionInsertableStrings ++ storedInsertables s.PrefixStr rs ∧
    ∀ e ∈ storedInsertables s.PrefixStr rs,
      ∃ r ∈ rs, s.PrefixStr <+: toInsertableString r ∧
        toInsertableString r = s.PrefixStr ++ e := by
  constructor
  · rw [handleResults_eq]
  · intro e he
    simp only [storedInsertables, List.mem_map, List.mem_filter] at he
    obtain ⟨r, ⟨hr, hacc⟩, hdrop⟩ := he
    have hpre : s.PrefixStr <+: toInsertableString r := of_decide_eq_true hacc
    refine ⟨r, hr, hpre, ?_⟩
    obtain ⟨tl, htl⟩ := hpre
    rw [← hdrop, ← htl, List.drop_left]

/-- Concrete collector input for the C3 witness. -/
def sessC3 : REPLCompletions := { sessEx with PrefixStr := "ab".data }

/-- Concrete raw results for the C3 witness. -/
def rsC3 : List CompletionResult := [⟨[⟨ChunkKind.Text, "abc".data⟩], "abc".data⟩]

/-- Witness for the amended C3 at a concrete pass. -/
theorem c3_per_pass_filter_invariant_witness :
    (handleResults sessC3 rsC3).CompletionInsertableStrings =
      sessC3.CompletionInsertableStrings ++
        storedInsertables sessC3.PrefixStr rsC3 ∧
    ∃ r ∈ rsC3, sessC3.PrefixStr <+: toInsertableString r ∧
      toInsertableString r = sessC3.PrefixStr ++ "c".data :=
  ⟨(c3_per_pass_filter_invariant sessC3 rsC3).1,
   (c3_per_pass_filter_invariant sessC3 rsC3).2 "c".data (by decide)⟩

/-- Claim C10 evaluated at the failing input: reducing the running root
`"abc"` against the stored string `"ab"`, the scan of
`std::mismatch(RootStr.begin(), RootStr.end(), S.begin())` stops at index
2 — but the loop dereferences the second buffer at every comparison, so it
reads indices 0, 1 and 2 of `"ab"`: index 2 is one past the end of the
2-character string (the NUL terminator of the C++ buffer, and a violation
of `std::mismatch`'s precondition that the second range be at least as
long as the first).  The computed root is nonetheless `"ab"`, because the
terminator can never match a NUL-free root character. -/
theorem c10_mismatch_reads_past_shorter :
    rootStep "abc".data "ab".data = "ab".data ∧
    cppMismatchLen "abc".data "ab".data = 2 ∧
    cppMismatchReadCount "abc".data "ab".data = 3 ∧
    ("ab".data).length < cppMismatchReadCount "abc".data "ab".data ∧
    computeRootStr ["abc".data, "ab".data] = "ab".data :=
  ⟨by decide, by decide, by decide, by decide, by decide⟩

end REPLC

